import Mathlib

/-
Verification development for the vaultiel vault engine: the parsing,
resolution and graph-indexing core described in spec.md.  The engine itself
ships as a compiled extension; the definitions below are a shallow embedding
of that core, modelled from the specification (each doc comment names the
spec section it follows).
-/

namespace Vaultiel

/-- Modelled from the spec: a single wikilink occurrence (spec section 3, Link).
The `heading` and `block_id` fields are mutually exclusive fragment selectors;
`embed` records a leading exclamation mark; `line` is 1-based. -/
structure Link where
  target : String
  heading : Option String
  block_id : Option String
  «alias» : Option String
  embed : Bool
  line : Nat
deriving Repr, DecidableEq

/-- Modelled from the spec: a tag occurrence (spec section 3, Tag). -/
structure Tag where
  name : String
  line : Nat
deriving Repr, DecidableEq

/-- Modelled from the spec: an ATX heading record (spec section 3, Heading). -/
structure Heading where
  level : Nat
  text : String
  line : Nat
  slug : String
deriving Repr, DecidableEq

/-- Modelled from the spec: a checklist task record (spec section 3, Task). -/
structure Task where
  symbol : String
  description : String
  due : Option String
  scheduled : Option String
  priority : Option String
  tags : List String
  block_id : Option String
  indent : Nat
  line : Nat
  file : String
deriving Repr, DecidableEq

/-- Modelled from the spec: a resolved, graph-oriented view of a Link
(spec section 3, LinkRef).  `from_note` denotes the other side relative to
the query: the resolved target for outgoing queries, the source note for
incoming queries. -/
structure LinkRef where
  from_note : String
  line : Nat
  context : String
  embed : Bool
deriving Repr, DecidableEq

/-- Modelled from the spec: the zone classification of a line
(spec section 4.1, Line Scanner). -/
inductive Zone
  | frontmatter
  | fenced
  | normal
deriving Repr, DecidableEq

/-- The backtick character. -/
def backtick : Char := Char.ofNat 96

def isWsChar (c : Char) : Bool := c == ' ' || c == '\t'

/-- Split the character stream into lines at newline characters. -/
def splitLinesAux (acc : List Char) : List Char → List String
  | [] => [String.mk acc.reverse]
  | c :: rest =>
    if c = '\n' then String.mk acc.reverse :: splitLinesAux [] rest
    else splitLinesAux (c :: acc) rest

def contentLines (s : String) : List String := splitLinesAux [] s.data

def trimLeftChars (l : List Char) : List Char := l.dropWhile (fun c => isWsChar c)

def trimChars (l : List Char) : List Char :=
  ((trimLeftChars l).reverse.dropWhile (fun c => isWsChar c)).reverse

def trimStr (s : String) : String := String.mk (trimChars s.data)

def countLeading (c : Char) : List Char → Nat
  | [] => 0
  | x :: rest => if x = c then countLeading c rest + 1 else 0

/-- Modelled from the spec: a fence opener is three or more backticks or
tildes at the start of a line, optionally followed by a language tag
(spec section 4.1). -/
def fenceOpener (s : String) : Option (Char × Nat) :=
  let nb := countLeading backtick s.data
  let nt := countLeading '~' s.data
  if nb ≥ 3 then some (backtick, nb)
  else if nt ≥ 3 then some ('~', nt)
  else none

/-- Modelled from the spec: a fence closer is a line holding exactly the
fence character of the matching opener, repeated to the same length
(spec section 4.1); a fence of a different character does not close it. -/
def fenceCloser (fc : Char) (n : Nat) (s : String) : Bool :=
  trimChars s.data == List.replicate n fc

/-- Modelled from the spec: zone classification of the body lines, driven by
the fenced-code state machine (spec section 4.1). -/
def bodyZones : Option (Char × Nat) → List String → List Zone
  | _, [] => []
  | none, l :: rest =>
    match fenceOpener l with
    | some fc => Zone.fenced :: bodyZones (some fc) rest
    | none => Zone.normal :: bodyZones none rest
  | some fc, l :: rest =>
    if fenceCloser fc.1 fc.2 l then Zone.fenced :: bodyZones none rest
    else Zone.fenced :: bodyZones (some fc) rest

/-- Modelled from the spec: the frontmatter block is delimited by a
three-dash line as the very first line and the next line that is exactly
three dashes; absent or unterminated frontmatter yields no frontmatter zone
(spec section 4.1).  Returns the 0-based index of the closing delimiter. -/
def fmEnd (ls : List String) : Option Nat :=
  match ls with
  | [] => none
  | first :: rest =>
    if first = "---" then (rest.findIdx? (fun l => l == "---")).map (fun i => i + 1)
    else none

/-- Modelled from the spec: the zone of every line of the content, in order
(spec section 4.1). -/
def zoneList (content : String) : List Zone :=
  let ls := contentLines content
  match fmEnd ls with
  | some j => List.replicate (j + 1) Zone.frontmatter ++ bodyZones none (ls.drop (j + 1))
  | none => bodyZones none ls

def numberLines : Nat → List String → List Zone → List (Nat × String × Zone)
  | _, [], _ => []
  | _, _ :: _, [] => []
  | i, l :: ls, z :: zs => (i, l, z) :: numberLines (i + 1) ls zs

/-- Modelled from the spec: the ordered sequence of (1-based line number,
raw text, zone) triples exposed by the Line Scanner (spec section 4.1). -/
def zonedLines (content : String) : List (Nat × String × Zone) :=
  numberLines 1 (contentLines content) (zoneList content)

/-- Modelled from the spec: left-to-right, non-overlapping scan of one line
for bracketed wikilink occurrences, with a leading exclamation mark marking
an embed; an unterminated opener before end of line is not a match
(spec section 4.2).  The state carries the embed flag and the reversed
characters captured so far inside an open occurrence. -/
def scanLinksAux : Option (Bool × List Char) → List Char → List (Bool × List Char)
  | none, [] => []
  | none, '!' :: '[' :: '[' :: rest => scanLinksAux (some (true, [])) rest
  | none, '[' :: '[' :: rest => scanLinksAux (some (false, [])) rest
  | none, _ :: rest => scanLinksAux none rest
  | some _, [] => []
  | some (e, acc), ']' :: ']' :: rest => (e, acc.reverse) :: scanLinksAux none rest
  | some (e, acc), c :: rest => scanLinksAux (some (e, c :: acc)) rest

def splitFirst (c : Char) : List Char → Option (List Char × List Char)
  | [] => none
  | x :: rest =>
    if x = c then some ([], rest)
    else (splitFirst c rest).map (fun p => (x :: p.1, p.2))

/-- Split the inner text of a wikilink at the first pipe into the
target-with-fragment part and the optional alias (spec section 4.2). -/
def splitAlias (inner : List Char) : List Char × Option String :=
  match splitFirst '|' inner with
  | some p => (p.1, some (String.mk p.2))
  | none => (inner, none)

/-- Split the target part at the first hash into the bare target and the
optional fragment (spec section 4.2). -/
def splitFrag (tf : List Char) : List Char × Option (List Char) :=
  match splitFirst '#' tf with
  | some p => (p.1, some p.2)
  | none => (tf, none)

/-- Turn the optional fragment into the heading and block id fields: a
fragment starting with a caret is a block id, any other fragment is a
heading; the two are mutually exclusive (spec sections 3 and 4.2). -/
def fragFields : Option (List Char) → Option String × Option String
  | none => (none, none)
  | some ('^' :: r) => (none, some (String.mk r))
  | some f => (some (String.mk f), none)

/-- Modelled from the spec: decompose the inner text of one wikilink
occurrence into target, fragment (heading or block id) and alias; the target
is trimmed and an empty trimmed target is not a match (spec section 4.2). -/
def mkLink (e : Bool) (inner : List Char) (n : Nat) : Option Link :=
  let ta := splitAlias inner
  let tf := splitFrag ta.1
  let target := String.mk (trimChars tf.1)
  if target = "" then none
  else some ⟨target, (fragFields tf.2).1, (fragFields tf.2).2, ta.2, e, n⟩

def linksOfLine (n : Nat) (s : String) : List Link :=
  (scanLinksAux none s.data).filterMap (fun p => mkLink p.1 p.2 n)

/-- Modelled from the spec: the standalone link extractor; it scans every
normal-zone line (fenced-code and frontmatter lines are excluded from link
extraction) and produces one Link record per occurrence, in line order then
left-to-right order (spec sections 4.1, 4.2 and 6). -/
def parse_links (content : String) : List Link :=
  (zonedLines content).flatMap (fun t =>
    if t.2.2 = Zone.normal then linksOfLine t.1 t.2.1 else [])

/-- Modelled from the spec: tag name characters are letters, digits,
underscore, dash and slash (spec section 4.3). -/
def isTagChar (c : Char) : Bool :=
  c.isAlpha || c.isDigit || c == '_' || c == '-' || c == '/'

/-- A candidate tag name is valid when it is nonempty and does not begin
with a digit (spec section 4.3). -/
def validTagName : List Char → Bool
  | [] => false
  | c :: _ => !c.isDigit

/-- State of the inline tag scanner: either outside a tag (tracking whether
the previous character was a boundary, i.e. start of line or whitespace) or
capturing a tag name (reversed). -/
inductive TagSt
  | out (boundary : Bool)
  | cap (acc : List Char)

/-- Modelled from the spec: scan one line for inline tags; a hash sign
starts a tag only when preceded by start-of-line or whitespace, and the name
must be nonempty and must not begin with a digit (spec section 4.3). -/
def scanTagsAux : TagSt → List Char → List String
  | TagSt.out _, [] => []
  | TagSt.out b, c :: rest =>
    if c = '#' then
      if b then scanTagsAux (TagSt.cap []) rest
      else scanTagsAux (TagSt.out false) rest
    else scanTagsAux (TagSt.out (isWsChar c)) rest
  | TagSt.cap acc, [] =>
    if validTagName acc.reverse then [String.mk acc.reverse] else []
  | TagSt.cap acc, c :: rest =>
    if isTagChar c then scanTagsAux (TagSt.cap (c :: acc)) rest
    else
      let tail := scanTagsAux (TagSt.out (isWsChar c)) rest
      if validTagName acc.reverse then String.mk acc.reverse :: tail else tail

def tagsOfLine (n : Nat) (s : String) : List Tag :=
  (scanTagsAux (TagSt.out true) s.data).map (fun name => ⟨name, n⟩)

/-- Strip one leading hash sign from a frontmatter tag value
(spec section 4.3: names are normalized by stripping a leading hash). -/
def stripHash (l : List Char) : List Char :=
  match l with
  | '#' :: r => r
  | _ => l

def startsWith : List Char → List Char → Bool
  | [], _ => true
  | _ :: _, [] => false
  | p :: ps, c :: cs => p == c && startsWith ps cs

/-- Modelled from the spec: extract tags declared in a frontmatter field
named tags, supporting both the list form (dash-prefixed lines after the
key) and a single scalar on the key line; each reported with its 1-based
line number within the original content (spec sections 3 and 4.3).  The
Boolean state records whether the scanner is inside the list form. -/
def fmTagsAux : Bool → List (Nat × String) → List Tag
  | _, [] => []
  | inList, (n, s) :: rest =>
    let t := trimChars s.data
    if inList && startsWith "- ".data t then
      ⟨String.mk (stripHash (trimChars (t.drop 2))), n⟩ :: fmTagsAux true rest
    else if startsWith "tags:".data t then
      let after := trimChars (t.drop 5)
      if after.isEmpty then fmTagsAux true rest
      else ⟨String.mk (stripHash after), n⟩ :: fmTagsAux false rest
    else fmTagsAux false rest

def fmEntries (content : String) : List (Nat × String) :=
  (zonedLines content).filterMap (fun t =>
    if t.2.2 = Zone.frontmatter then some (t.1, t.2.1) else none)

/-- Modelled from the spec: the standalone tag extractor; frontmatter-zone
lines feed only the frontmatter tags field path, normal-zone lines are
scanned for inline tags, and fenced-code lines are excluded
(spec sections 4.1, 4.3 and 6). -/
def parse_content_tags (content : String) : List Tag :=
  fmTagsAux false (fmEntries content) ++
    (zonedLines content).flatMap (fun t =>
      if t.2.2 = Zone.normal then tagsOfLine t.1 t.2.1 else [])

/-- Modelled from the spec: a slug keeps lowercase ASCII letters and digits
(spec section 4.4). -/
def isSlugKeep (c : Char) : Bool :=
  (('a' ≤ c && c ≤ 'z') || c.isDigit)

def collapseDashes : Bool → List Char → List Char
  | _, [] => []
  | prevDash, c :: rest =>
    if c = '-' then
      if prevDash then collapseDashes true rest
      else '-' :: collapseDashes true rest
    else c :: collapseDashes false rest

def trimDashes (l : List Char) : List Char :=
  ((l.dropWhile (fun c => c == '-')).reverse.dropWhile (fun c => c == '-')).reverse

/-- Modelled from the spec: slug generation lower-cases the text, replaces
every maximal run of characters outside lowercase letters and digits with a
single dash and trims leading and trailing dashes (spec section 4.4). -/
def slugify (s : String) : String :=
  let mapped := s.data.map (fun c =>
    let lc := c.toLower
    if isSlugKeep lc then lc else '-')
  String.mk (trimDashes (collapseDashes false mapped))

def maxLen (used : List String) : Nat :=
  used.foldr (fun s acc => max s.length acc) 0

/-- Modelled from the spec: when the base slug was already produced earlier
in the same note, numeric suffixes -2, -3, ... are tried until unique
(spec section 4.4).  The search is bounded by one more candidate than there
are used slugs, which by counting always suffices; the final fallback (a
string longer than every used slug, hence fresh) is unreachable in practice
and only totalizes the definition. -/
def uniquify (used : List String) (base : String) : String :=
  if used.contains base then
    match (List.range (used.length + 1)).find?
        (fun i => !(used.contains (base ++ "-" ++ Nat.repr (i + 2)))) with
    | some i => base ++ "-" ++ Nat.repr (i + 2)
    | none => String.mk (List.replicate (maxLen used + 1) 'x')
  else base

def dropTrailingHashes (l : List Char) : List Char :=
  (l.reverse.dropWhile (fun c => c == '#')).reverse

/-- Modelled from the spec: ATX heading detection; the first non-indent
characters are one to six hash signs followed by at least one space, the
text is the remainder with trailing hash runs stripped and surrounding
whitespace trimmed (spec section 4.4). -/
def headingOfLine (s : String) : Option (Nat × String) :=
  let cs := trimLeftChars s.data
  let lvl := countLeading '#' cs
  if 1 ≤ lvl && lvl ≤ 6 then
    match cs.drop lvl with
    | ' ' :: rest => some (lvl, String.mk (trimChars (dropTrailingHashes (trimChars rest))))
    | _ => none
  else none

/-- Assign slugs to heading candidates in order, threading the list of slugs
already produced in the same note (spec section 4.4). -/
def assignSlugs : List String → List (Nat × Nat × String) → List Heading
  | _, [] => []
  | used, (n, lvl, txt) :: rest =>
    let s := uniquify used (slugify txt)
    ⟨lvl, txt, n, s⟩ :: assignSlugs (s :: used) rest

def headingCandidates (content : String) : List (Nat × Nat × String) :=
  (zonedLines content).filterMap (fun t =>
    if t.2.2 = Zone.normal then
      (headingOfLine t.2.1).map (fun p => (t.1, p.1, p.2))
    else none)

/-- Modelled from the spec: the standalone heading extractor; detects ATX
headings on normal-zone lines and assigns deterministic, per-note unique
slugs (spec sections 4.1, 4.4 and 6). -/
def parse_content_headings (content : String) : List Heading :=
  assignSlugs [] (headingCandidates content)

/-- Leading whitespace width of a line: a space counts 1 and a tab counts
one indent step of 4 (spec section 4.6); returns the width and the rest. -/
def splitIndent : List Char → Nat × List Char
  | ' ' :: r => let p := splitIndent r; (p.1 + 1, p.2)
  | '\t' :: r => let p := splitIndent r; (p.1 + 4, p.2)
  | l => (0, l)

/-- Modelled from the spec: recognize a list marker (dash, star, plus, or an
ordered-list prefix) followed by a space, returning the rest of the line
(spec sections 4.5 and 4.6). -/
def dropListMarker (l : List Char) : Option (List Char) :=
  match l with
  | '-' :: ' ' :: r => some r
  | '*' :: ' ' :: r => some r
  | '+' :: ' ' :: r => some r
  | _ =>
    let ds := l.takeWhile Char.isDigit
    if ds.isEmpty then none
    else
      match l.drop ds.length with
      | '.' :: ' ' :: r => some r
      | ')' :: ' ' :: r => some r
      | _ => none

/-- Modelled from the spec: the checkbox token is one of space, lowercase x
or uppercase X (normalized to lowercase), greater-than, or dash, and the
symbol is carried as the literal bracket string (spec sections 3 and 4.6). -/
def checkboxSym (c : Char) : Option String :=
  if c = ' ' then some "[ ]"
  else if c = 'x' || c = 'X' then some "[x]"
  else if c = '>' then some "[>]"
  else if c = '-' then some "[-]"
  else none

/-- Split a character list into whitespace-separated tokens; the
accumulator holds the reversed characters of the current token. -/
def splitTokens (acc : List Char) : List Char → List String
  | [] => if acc.isEmpty then [] else [String.mk acc.reverse]
  | c :: r =>
    if isWsChar c then
      if acc.isEmpty then splitTokens [] r
      else String.mk acc.reverse :: splitTokens [] r
    else splitTokens (c :: acc) r

def isDateTok (s : String) : Bool :=
  match s.data with
  | [a, b, c, d, e, f, g, h, i, j] =>
    a.isDigit && b.isDigit && c.isDigit && d.isDigit && e == '-' &&
      f.isDigit && g.isDigit && h == '-' && i.isDigit && j.isDigit
  | _ => false

def isTagTok (s : String) : Bool :=
  match s.data with
  | '#' :: rest => !rest.isEmpty && rest.all isTagChar && validTagName rest
  | _ => false

def isBlockTok (s : String) : Bool :=
  match s.data with
  | '^' :: rest =>
    !rest.isEmpty && rest.all (fun c => c.isAlpha || c.isDigit || c == '_' || c == '-')
  | _ => false

/-- Modelled from the spec: the fixed set of priority glyphs and their tiers
(spec sections 3 and 4.6). -/
def priorityOfTok (s : String) : Option String :=
  if s = "🔺" then some "highest"
  else if s = "⏫" then some "high"
  else if s = "🔼" then some "medium"
  else if s = "🔽" then some "low"
  else if s = "⏬" then some "lowest"
  else none

/-- Metadata stripped from the end of a task line (spec section 4.6). -/
structure TaskMeta where
  due : Option String
  scheduled : Option String
  priority : Option String
  block : Option String
deriving Repr, DecidableEq

/-- Modelled from the spec: scan the whitespace-separated tokens of a task
line right-to-left (the input is the reversed token list) for known
metadata: trailing tags, priority glyphs, a trailing block id, and a date
marker glyph followed by a date for due (calendar glyph) or scheduled
(hourglass glyph); matched tokens are removed and the scan stops at the
first unrecognized token (spec section 4.6). -/
def scanMeta : List String → TaskMeta → List String × TaskMeta
  | [], m => ([], m)
  | t :: rest, m =>
    if isTagTok t then scanMeta rest m
    else if isBlockTok t then
      scanMeta rest { m with block := some (String.mk (t.data.drop 1)) }
    else
      match priorityOfTok t with
      | some p => scanMeta rest { m with priority := some p }
      | none =>
        if isDateTok t then
          match rest with
          | g :: rest2 =>
            if g = "📅" then scanMeta rest2 { m with due := some t }
            else if g = "⏳" then scanMeta rest2 { m with scheduled := some t }
            else (t :: rest, m)
          | [] => (t :: rest, m)
        else (t :: rest, m)

def joinSpaces : List String → String
  | [] => ""
  | [t] => t
  | t :: rest => t ++ " " ++ joinSpaces rest

/-- After the checkbox token the line is either over or continues with a
space before the description (spec section 4.6). -/
def taskBody : List Char → Option (List Char)
  | [] => some []
  | ' ' :: r4 => some r4
  | _ => none

/-- Modelled from the spec: assemble a Task from the checkbox symbol and
the remainder of the line: the reversed token list is scanned for trailing
metadata, matched tokens are removed from the description and recorded, and
embedded tags are extracted via the inline tag rules and attached
(spec section 4.6). -/
def buildTask (file : String) (n : Nat) (indentW : Nat) (sym : String)
    (body : List Char) : Task :=
  let toks := splitTokens [] body
  let sm := scanMeta toks.reverse ⟨none, none, none, none⟩
  { symbol := sym
    description := joinSpaces sm.1.reverse
    due := sm.2.due
    scheduled := sm.2.scheduled
    priority := sm.2.priority
    tags := scanTagsAux (TagSt.out true) body
    block_id := sm.2.block
    indent := indentW / 4
    line := n
    file := file }

/-- Modelled from the spec: parse one line as a checklist task: indent,
list marker, checkbox token immediately after the list marker, then the
remainder (spec section 4.6). -/
def parseTaskLine (file : String) (n : Nat) (s : String) : Option Task :=
  match dropListMarker (splitIndent s.data).2 with
  | none => none
  | some afterMarker =>
    match afterMarker with
    | '[' :: c :: ']' :: r3 =>
      match checkboxSym c with
      | none => none
      | some sym => (taskBody r3).map (buildTask file n (splitIndent s.data).1 sym)
    | _ => none

/-- Modelled from the spec: the per-note task extractor; checklist lines are
recognized on normal-zone lines only, and the owning file path and line
numbers are supplied by the caller (spec sections 4.6 and 6). -/
def get_tasks (file : String) (content : String) : List Task :=
  (zonedLines content).flatMap (fun t =>
    if t.2.2 = Zone.normal then
      match parseTaskLine file t.1 t.2.1 with
      | some task => [task]
      | none => []
    else [])

/-- Modelled from the spec: the per-note bundle kept by the Note Index
(spec sections 3 and 4.7).  The raw content is stored as text; the
frontmatter is deserialized by an external collaborator (spec section 1),
so the alias list and the link-bearing frontmatter fields (field name
paired with the Link parsed from its value) are part of the bundle. -/
structure NoteData where
  path : String
  content : String
  aliases : List String
  fmLinks : List (String × Link)
deriving Repr, DecidableEq

/-- Result of reference resolution (spec sections 4.8 and 7): a canonical
note path or a NotFound error. -/
inductive Res
  | ok (path : String)
  | notFound
deriving Repr, DecidableEq

def endsWithMd (s : String) : Bool := ".md".data.isSuffixOf s.data

def lowerStr (s : String) : String := String.mk (s.data.map Char.toLower)

/-- The base name of a note path: the path without directory and without
the trailing md extension (spec section 4.7). -/
def baseName (path : String) : String :=
  let noExt := if endsWithMd path then String.mk (path.data.take (path.data.length - 3)) else path
  match (noExt.data.splitOn '/').getLast? with
  | some comp => String.mk comp
  | none => noExt

/-- Modelled from the spec: the Resolver maps a reference string to a
canonical note path in order: (a) exact path match when the reference
already ends in md and that note exists; (b) exact base-name match,
case-sensitive first, case-insensitive fallback; (c) alias-table lookup;
NotFound when no step yields a candidate.  Ties resolve to the first
registered note (spec section 4.8). -/
def resolve_note (v : List NoteData) (ref : String) : Res :=
  if endsWithMd ref && v.any (fun n => n.path == ref) then Res.ok ref
  else
    match v.find? (fun n => baseName n.path == ref) with
    | some n => Res.ok n.path
    | none =>
      match v.find? (fun n => lowerStr (baseName n.path) == lowerStr ref) with
      | some n => Res.ok n.path
      | none =>
        match v.find? (fun n => n.aliases.contains ref) with
        | some n => Res.ok n.path
        | none => Res.notFound

/-- Modelled from the spec: every Link of a note paired with its context
locator: body links come from the standalone extractor with context body,
frontmatter links carry the locator frontmatter:field (spec section 4.9). -/
def noteLinks (n : NoteData) : List (Link × String) :=
  (parse_links n.content).map (fun l => (l, "body")) ++
    n.fmLinks.map (fun p => (p.2, "frontmatter:" ++ p.1))

/-- Resolve one (Link, context) pair of a note into an outgoing LinkRef,
dropping it silently when the target does not resolve (spec section 4.9). -/
def resolveRef (v : List NoteData) (lc : Link × String) : Option LinkRef :=
  match resolve_note v lc.1.target with
  | Res.ok t => some ⟨t, lc.1.line, lc.2, lc.1.embed⟩
  | Res.notFound => none

/-- Modelled from the spec: outgoing links of a note: every Link in the
note, resolved, with from_note holding the resolved target; links whose
target does not resolve are omitted (spec section 4.9). -/
def get_outgoing_links (v : List NoteData) (path : String) : List LinkRef :=
  match v.find? (fun n => n.path == path) with
  | some n => (noteLinks n).filterMap (resolveRef v)
  | none => []

/-- Modelled from the spec: incoming links of a note, computed by resolving
the outgoing links of every note and keeping those whose resolution equals the
queried note; from_note holds the source note (spec section 4.9). -/
def get_incoming_links (v : List NoteData) (path : String) : List LinkRef :=
  v.flatMap (fun src =>
    (noteLinks src).filterMap (fun lc =>
      match resolve_note v lc.1.target with
      | Res.ok t =>
        if t = path then some ⟨src.path, lc.1.line, lc.2, lc.1.embed⟩ else none
      | Res.notFound => none))

/-- Modelled from the spec: the shared mutable state of one Vault instance
is the Note Index (spec sections 4.7 and 5); queries read it and leave it
unchanged. -/
structure VaultState where
  notes : List NoteData
deriving Repr, DecidableEq

/-- Modelled from the spec: the outgoing-links query as a state transformer
on the vault: it recomputes the answer from the current Note Index and
performs no write (spec sections 4.9 and 7). -/
def runOutgoingQuery (s : VaultState) (path : String) : List LinkRef × VaultState :=
  (get_outgoing_links s.notes path, s)

/-- Modelled from the spec: the incoming-links query as a state transformer
on the vault (spec sections 4.9 and 7). -/
def runIncomingQuery (s : VaultState) (path : String) : List LinkRef × VaultState :=
  (get_incoming_links s.notes path, s)

def isOkRes : Res → Bool
  | Res.ok _ => true
  | Res.notFound => false

/-! Helper lemmas about the scanner and the extractors. -/

theorem mem_numberLines_le {t : Nat × String × Zone} :
    ∀ (i : Nat) (ls : List String) (zs : List Zone), t ∈ numberLines i ls zs → i ≤ t.1 := by
  intro i ls zs h
  induction ls generalizing i zs with
  | nil => simp [numberLines] at h
  | cons l ls ih =>
    cases zs with
    | nil => simp [numberLines] at h
    | cons z zs =>
      simp only [numberLines, List.mem_cons] at h
      rcases h with rfl | h
      · exact Nat.le_refl _
      · exact Nat.le_of_succ_le (ih (i + 1) zs h)

theorem mem_numberLines_inj {a b : Nat × String × Zone} :
    ∀ (i : Nat) (ls : List String) (zs : List Zone),
      a ∈ numberLines i ls zs → b ∈ numberLines i ls zs → a.1 = b.1 → a = b := by
  intro i ls zs ha hb hab
  induction ls generalizing i zs with
  | nil => simp [numberLines] at ha
  | cons l ls ih =>
    cases zs with
    | nil => simp [numberLines] at ha
    | cons z zs =>
      simp only [numberLines, List.mem_cons] at ha hb
      rcases ha with rfl | ha <;> rcases hb with rfl | hb
      · rfl
      · exfalso
        have hle := mem_numberLines_le (i + 1) ls zs hb
        simp at hab
        omega
      · exfalso
        have hle := mem_numberLines_le (i + 1) ls zs ha
        simp at hab
        omega
      · exact ih (i + 1) zs ha hb

theorem fragFields_excl (o : Option (List Char)) :
    ¬((fragFields o).1.isSome = true ∧ (fragFields o).2.isSome = true) := by
  unfold fragFields
  split <;> simp

theorem mkLink_spec {e : Bool} {inner : List Char} {n : Nat} {l : Link}
    (h : mkLink e inner n = some l) :
    l.line = n ∧ l.embed = e ∧
      ¬(l.heading.isSome = true ∧ l.block_id.isSome = true) ∧ l.target ≠ "" := by
  unfold mkLink at h
  dsimp only at h
  split at h
  · exact absurd h (by simp)
  next htgt =>
    cases h
    exact ⟨rfl, rfl, fragFields_excl _, htgt⟩

theorem linksOfLine_line {n : Nat} {s : String} {l : Link} (h : l ∈ linksOfLine n s) :
    l.line = n := by
  unfold linksOfLine at h
  obtain ⟨p, _, hmk⟩ := List.mem_filterMap.mp h
  exact (mkLink_spec hmk).1

theorem linksOfLine_props {n : Nat} {s : String} {l : Link} (h : l ∈ linksOfLine n s) :
    ¬(l.heading.isSome = true ∧ l.block_id.isSome = true) ∧ l.target ≠ "" := by
  unfold linksOfLine at h
  obtain ⟨p, _, hmk⟩ := List.mem_filterMap.mp h
  exact ⟨(mkLink_spec hmk).2.2.1, (mkLink_spec hmk).2.2.2⟩

theorem parse_links_props {c : String} {l : Link} (h : l ∈ parse_links c) :
    (∃ s, (l.line, s, Zone.normal) ∈ zonedLines c) ∧
      ¬(l.heading.isSome = true ∧ l.block_id.isSome = true) ∧ l.target ≠ "" := by
  unfold parse_links at h
  obtain ⟨⟨n, s, z⟩, ht, hl⟩ := List.mem_flatMap.mp h
  by_cases hz : z = Zone.normal
  · subst hz
    simp only [if_pos rfl] at hl
    refine ⟨⟨s, ?_⟩, linksOfLine_props hl⟩
    rw [linksOfLine_line hl]
    exact ht
  · rw [if_neg (by simpa using hz)] at hl
    simp at hl

theorem tagsOfLine_line {n : Nat} {s : String} {t : Tag} (h : t ∈ tagsOfLine n s) :
    t.line = n := by
  unfold tagsOfLine at h
  obtain ⟨name, _, hEq⟩ := List.mem_map.mp h
  rw [← hEq]

theorem fmTagsAux_mem {t : Tag} :
    ∀ (b : Bool) (ps : List (Nat × String)), t ∈ fmTagsAux b ps → ∃ s, (t.line, s) ∈ ps := by
  intro b ps h
  induction ps generalizing b with
  | nil => simp [fmTagsAux] at h
  | cons p rest ih =>
    obtain ⟨n, s⟩ := p
    rw [fmTagsAux] at h
    dsimp only at h
    split at h
    · rcases List.mem_cons.mp h with rfl | h
      · exact ⟨s, List.mem_cons_self _ _⟩
      · obtain ⟨s2, hs2⟩ := ih _ h
        exact ⟨s2, List.mem_cons_of_mem _ hs2⟩
    · split at h
      · split at h
        · obtain ⟨s2, hs2⟩ := ih _ h
          exact ⟨s2, List.mem_cons_of_mem _ hs2⟩
        · rcases List.mem_cons.mp h with rfl | h
          · exact ⟨s, List.mem_cons_self _ _⟩
          · obtain ⟨s2, hs2⟩ := ih _ h
            exact ⟨s2, List.mem_cons_of_mem _ hs2⟩
      · obtain ⟨s2, hs2⟩ := ih _ h
        exact ⟨s2, List.mem_cons_of_mem _ hs2⟩

theorem parse_content_tags_props {c : String} {t : Tag} (h : t ∈ parse_content_tags c) :
    ∃ s z, z ≠ Zone.fenced ∧ (t.line, s, z) ∈ zonedLines c := by
  unfold parse_content_tags at h
  rcases List.mem_append.mp h with hfm | hin
  · obtain ⟨s, hs⟩ := fmTagsAux_mem _ _ hfm
    unfold fmEntries at hs
    obtain ⟨⟨n, s2, z⟩, htrip, hsome⟩ := List.mem_filterMap.mp hs
    by_cases hz : z = Zone.frontmatter
    · subst hz
      simp only [if_pos rfl] at hsome
      obtain ⟨h1, h2⟩ : n = t.line ∧ s2 = s := by simpa [Prod.ext_iff] using hsome
      subst h1
      exact ⟨s2, Zone.frontmatter, by simp, htrip⟩
    · rw [if_neg (by simpa using hz)] at hsome
      simp at hsome
  · obtain ⟨⟨n, s, z⟩, htrip, htag⟩ := List.mem_flatMap.mp hin
    by_cases hz : z = Zone.normal
    · subst hz
      simp only [if_pos rfl] at htag
      refine ⟨s, Zone.normal, by simp, ?_⟩
      rw [tagsOfLine_line htag]
      exact htrip
    · rw [if_neg (by simpa using hz)] at htag
      simp at htag

/-! Helper lemmas about slug assignment. -/

theorem mem_maxLen : ∀ (used : List String) (s : String), s ∈ used → s.length ≤ maxLen used := by
  intro used
  induction used with
  | nil => simp
  | cons x rest ih =>
    intro s hs
    rcases List.mem_cons.mp hs with rfl | hs
    · exact Nat.le_max_left _ _
    · exact Nat.le_trans (ih s hs) (Nat.le_max_right _ _)

theorem uniquify_not_mem (used : List String) (base : String) :
    uniquify used base ∉ used := by
  unfold uniquify
  split
  next hc =>
    split
    next i hfind =>
      have hp := List.find?_some hfind
      intro hmem
      rw [Bool.not_eq_true', ← Bool.not_eq_true] at hp
      exact hp (List.elem_eq_true_of_mem hmem)
    next =>
      intro hmem
      have hle := mem_maxLen used _ hmem
      have hlen : (String.mk (List.replicate (maxLen used + 1) 'x')).length =
          maxLen used + 1 := by
        simp [String.length]
      omega
  next hc =>
    intro hmem
    exact hc (List.elem_eq_true_of_mem hmem)

theorem assignSlugs_spec :
    ∀ (l : List (Nat × Nat × String)) (used : List String),
      (∀ h ∈ assignSlugs used l, h.slug ∉ used) ∧
        ((assignSlugs used l).map Heading.slug).Nodup := by
  intro l
  induction l with
  | nil => intro used; simp [assignSlugs]
  | cons x rest ih =>
    intro used
    obtain ⟨n, lvl, txt⟩ := x
    rw [assignSlugs]
    constructor
    · intro h hh
      rcases List.mem_cons.mp hh with rfl | hh
      · exact uniquify_not_mem used (slugify txt)
      · intro hmem
        exact (ih _).1 h hh (List.mem_cons_of_mem _ hmem)
    · rw [List.map_cons, List.nodup_cons]
      refine ⟨?_, (ih _).2⟩
      intro hmem
      obtain ⟨h, hh, hEq⟩ := List.mem_map.mp hmem
      have := (ih _).1 h hh
      rw [hEq] at this
      exact this (List.mem_cons_self _ _)

/-! Helper lemmas about the Resolver. -/

theorem resolve_note_notFound_iff (v : List NoteData) (ref : String) :
    resolve_note v ref = Res.notFound ↔
      ¬(endsWithMd ref = true ∧ ∃ n ∈ v, n.path = ref) ∧
      (∀ n ∈ v, baseName n.path ≠ ref) ∧
      (∀ n ∈ v, lowerStr (baseName n.path) ≠ lowerStr ref) ∧
      (∀ n ∈ v, ref ∉ n.aliases) := by
  unfold resolve_note
  split
  next hcond =>
    rw [Bool.and_eq_true, List.any_eq_true] at hcond
    obtain ⟨hmd, n, hn, hpath⟩ := hcond
    simp only [beq_iff_eq] at hpath
    constructor
    · intro h; simp at h
    · rintro ⟨h1, -, -, -⟩
      exact absurd ⟨hmd, n, hn, hpath⟩ h1
  next hcond =>
    split
    next n hfind =>
      have hp := List.find?_some hfind
      have hmem := List.mem_of_find?_eq_some hfind
      simp only [beq_iff_eq] at hp
      constructor
      · intro h; simp at h
      · rintro ⟨-, h2, -, -⟩
        exact absurd hp (h2 n hmem)
    next hnone1 =>
      split
      next n hfind =>
        have hp := List.find?_some hfind
        have hmem := List.mem_of_find?_eq_some hfind
        simp only [beq_iff_eq] at hp
        constructor
        · intro h; simp at h
        · rintro ⟨-, -, h3, -⟩
          exact absurd hp (h3 n hmem)
      next hnone2 =>
        split
        next n hfind =>
          have hp := List.find?_some hfind
          have hmem := List.mem_of_find?_eq_some hfind
          constructor
          · intro h; simp at h
          · rintro ⟨-, -, -, h4⟩
            exact absurd hp (by simpa using h4 n hmem)
        next hnone3 =>
          constructor
          · intro _
            refine ⟨?_, ?_, ?_, ?_⟩
            · rintro ⟨hmd, n, hn, hpath⟩
              apply hcond
              rw [Bool.and_eq_true, List.any_eq_true]
              exact ⟨hmd, n, hn, by simp [hpath]⟩
            · intro n hn hEq
              have := List.find?_eq_none.mp hnone1 n hn
              simp [hEq] at this
            · intro n hn hEq
              have := List.find?_eq_none.mp hnone2 n hn
              simp [hEq] at this
            · intro n hn hmem
              have := List.find?_eq_none.mp hnone3 n hn
              exact this (by simpa using hmem)
          · intro _; rfl

theorem resolve_note_path_first (v : List NoteData) (ref : String)
    (h1 : endsWithMd ref = true) (h2 : ∃ n ∈ v, n.path = ref) :
    resolve_note v ref = Res.ok ref := by
  have hc : (endsWithMd ref && v.any fun n => n.path == ref) = true := by
    rw [Bool.and_eq_true, List.any_eq_true]
    obtain ⟨n, hn, hp⟩ := h2
    exact ⟨h1, n, hn, by simp [hp]⟩
  unfold resolve_note
  rw [if_pos hc]

theorem notPathCase {v : List NoteData} {ref : String}
    (h1 : ¬(endsWithMd ref = true ∧ ∃ m ∈ v, m.path = ref)) :
    ¬((endsWithMd ref && v.any fun n => n.path == ref) = true) := by
  intro hcc
  apply h1
  rw [Bool.and_eq_true, List.any_eq_true] at hcc
  obtain ⟨hmd, m, hm, hp⟩ := hcc
  exact ⟨hmd, m, hm, by simpa using hp⟩

theorem resolve_note_base_second (v : List NoteData) (ref : String) (n : NoteData)
    (h1 : ¬(endsWithMd ref = true ∧ ∃ m ∈ v, m.path = ref))
    (h2 : v.find? (fun m => baseName m.path == ref) = some n) :
    resolve_note v ref = Res.ok n.path := by
  unfold resolve_note
  rw [if_neg (notPathCase h1), h2]

theorem resolve_note_ci_third (v : List NoteData) (ref : String) (n : NoteData)
    (h1 : ¬(endsWithMd ref = true ∧ ∃ m ∈ v, m.path = ref))
    (h2 : v.find? (fun m => baseName m.path == ref) = none)
    (h3 : v.find? (fun m => lowerStr (baseName m.path) == lowerStr ref) = some n) :
    resolve_note v ref = Res.ok n.path := by
  unfold resolve_note
  rw [if_neg (notPathCase h1), h2, h3]

theorem resolve_note_alias_fourth (v : List NoteData) (ref : String) (n : NoteData)
    (h1 : ¬(endsWithMd ref = true ∧ ∃ m ∈ v, m.path = ref))
    (h2 : v.find? (fun m => baseName m.path == ref) = none)
    (h3 : v.find? (fun m => lowerStr (baseName m.path) == lowerStr ref) = none)
    (h4 : v.find? (fun m => m.aliases.contains ref) = some n) :
    resolve_note v ref = Res.ok n.path := by
  unfold resolve_note
  rw [if_neg (notPathCase h1), h2, h3, h4]

/-! Helper lemmas about the Link Graph. -/

theorem noteLinks_context {n : NoteData} {lc : Link × String} (h : lc ∈ noteLinks n) :
    lc.2 = "body" ∨ ∃ f, lc.2 = "frontmatter:" ++ f := by
  unfold noteLinks at h
  rcases List.mem_append.mp h with h | h
  · obtain ⟨l, -, hEq⟩ := List.mem_map.mp h
    left
    rw [← hEq]
  · obtain ⟨p, -, hEq⟩ := List.mem_map.mp h
    right
    exact ⟨p.1, by rw [← hEq]⟩

theorem length_filterMap_eq_filter {α β : Type} (f : α → Option β) :
    ∀ l : List α, (l.filterMap f).length = (l.filter (fun x => (f x).isSome)).length := by
  intro l
  induction l with
  | nil => rfl
  | cons x rest ih =>
    cases hfx : f x <;> simp [List.filterMap_cons, hfx, List.filter_cons, ih]

theorem resolveRef_isSome (v : List NoteData) (lc : Link × String) :
    (resolveRef v lc).isSome = isOkRes (resolve_note v lc.1.target) := by
  cases h : resolve_note v lc.1.target <;> simp [resolveRef, isOkRes, h]

/-! Helper lemmas about the Task Extractor. -/

theorem checkboxSym_cases {c : Char} {s : String} (h : checkboxSym c = some s) :
    s = "[ ]" ∨ s = "[x]" ∨ s = "[>]" ∨ s = "[-]" := by
  unfold checkboxSym at h
  split_ifs at h <;> (injection h with h2; subst h2; simp)

theorem buildTask_symbol (file : String) (n indentW : Nat) (sym : String)
    (body : List Char) : (buildTask file n indentW sym body).symbol = sym := rfl

theorem parseTaskLine_symbol {file : String} {n : Nat} {s : String} {t : Task}
    (h : parseTaskLine file n s = some t) :
    t.symbol = "[ ]" ∨ t.symbol = "[x]" ∨ t.symbol = "[>]" ∨ t.symbol = "[-]" := by
  unfold parseTaskLine at h
  split at h
  · simp at h
  next afterMarker hdrop =>
    split at h
    next c r3 =>
      split at h
      · simp at h
      next sym hsym =>
        obtain ⟨body, -, hbt⟩ := Option.map_eq_some'.mp h
        have hts : t.symbol = sym := by rw [← hbt, buildTask_symbol]
        rw [hts]
        exact checkboxSym_cases hsym
    · simp at h

theorem get_tasks_mem_symbol :
    ∀ (file content : String) (t : Task), t ∈ get_tasks file content →
      t.symbol = "[ ]" ∨ t.symbol = "[x]" ∨ t.symbol = "[>]" ∨ t.symbol = "[-]" := by
  intro file content t h
  unfold get_tasks at h
  obtain ⟨⟨n, s, z⟩, htrip, ht⟩ := List.mem_flatMap.mp h
  by_cases hz : z = Zone.normal
  · subst hz
    simp only [if_pos rfl] at ht
    cases hpt : parseTaskLine file n s with
    | none =>
      rw [hpt] at ht
      simp at ht
    | some task =>
      rw [hpt] at ht
      simp at ht
      subst ht
      exact parseTaskLine_symbol hpt
  · rw [if_neg (by simpa using hz)] at ht
    simp at ht

/-! The claims. -/

/-- Claim C1: every wikilink occurrence outside fenced code yields one Link
record decomposing it: a target-with-alias form yields the target and the
alias with embed false; an embedded block form yields embed true, the block
id and no heading; heading and block id are mutually exclusive and the
(trimmed) target is never empty; an unterminated opener before end of line
is not a match and an empty trimmed target is not a match; records come in
left-to-right order with the embed flag set exactly for occurrences
prefixed with an exclamation mark. -/
theorem claim_C1 :
    parse_links "[[Target|Alias]]" = [⟨"Target", none, none, some "Alias", false, 1⟩] ∧
    parse_links "![[Target#^abc]]" = [⟨"Target", none, some "abc", none, true, 1⟩] ∧
    parse_links "[[Target#My Heading]]" =
      [⟨"Target", some "My Heading", none, none, false, 1⟩] ∧
    (∀ (content : String) (l : Link), l ∈ parse_links content →
        ¬(l.heading.isSome = true ∧ l.block_id.isSome = true) ∧ l.target ≠ "") ∧
    parse_links "before [[Unterminated" = [] ∧
    parse_links "[[ ]] and [[" = [] ∧
    parse_links "a [[A]] b ![[B]]" =
      [⟨"A", none, none, none, false, 1⟩, ⟨"B", none, none, none, true, 1⟩] :=
  ⟨by decide, by decide, by decide,
   fun _ _ h => (parse_links_props h).2,
   by decide, by decide, by decide⟩

theorem claim_C1_witness :
    ¬((Link.mk "A" (some "h") none none false 1).heading.isSome = true ∧
        (Link.mk "A" (some "h") none none false 1).block_id.isSome = true) ∧
      (Link.mk "A" (some "h") none none false 1).target ≠ "" :=
  claim_C1.2.2.2.1 "[[A#h]]" (Link.mk "A" (some "h") none none false 1) (by decide)

/-- Claim C2: a link or tag on a line whose zone is fenced code is never
reported by the link or tag extractor (no reported record can share its line
number with a fenced line), while the same text inside single-backtick
inline code on a normal line is still reported. -/
theorem claim_C2 :
    (∀ (content : String) (l : Link) (s : String),
        l ∈ parse_links content → (l.line, s, Zone.fenced) ∉ zonedLines content) ∧
    (∀ (content : String) (t : Tag) (s : String),
        t ∈ parse_content_tags content → (t.line, s, Zone.fenced) ∉ zonedLines content) ∧
    parse_links "a\n```\n[[X]] #t\n```\nb" = [] ∧
    parse_content_tags "a\n```\n[[X]] #t\n```\nb" = [] ∧
    parse_links "a `[[X]] #t` b" = [⟨"X", none, none, none, false, 1⟩] ∧
    parse_content_tags "a `[[X]] #t` b" = [⟨"t", 1⟩] := by
  refine ⟨?_, ?_, by decide, by decide, by decide, by decide⟩
  · intro content l s hl hmem
    obtain ⟨⟨s2, hs2⟩, -, -⟩ := parse_links_props hl
    unfold zonedLines at hs2 hmem
    have hEq := mem_numberLines_inj 1 _ _ hs2 hmem rfl
    injection hEq with hEq1 hEq2
    injection hEq2 with hEq3 hEq4
    exact absurd hEq4 (by simp)
  · intro content t s ht hmem
    obtain ⟨s2, z, hz, hs2⟩ := parse_content_tags_props ht
    unfold zonedLines at hs2 hmem
    have hEq := mem_numberLines_inj 1 _ _ hs2 hmem rfl
    injection hEq with hEq1 hEq2
    injection hEq2 with hEq3 hEq4
    exact hz hEq4

theorem claim_C2_witness :
    (1, "[[X]]", Zone.fenced) ∉ zonedLines "[[X]]" :=
  claim_C2.1 "[[X]]" (Link.mk "X" none none none false 1) "[[X]]" (by decide)

/-- Claim C3: the Resolver tries, in order, (a) exact path match for
references ending in md that exist, (b) exact base-name match
(case-sensitive first, case-insensitive fallback), (c) alias-table lookup,
and yields NotFound exactly when no step has a candidate; a note declaring
the alias quickstart resolves both by its exact filename and by that
alias. -/
theorem claim_C3 :
    (∀ (v : List NoteData) (ref : String),
        resolve_note v ref = Res.notFound ↔
          ¬(endsWithMd ref = true ∧ ∃ n ∈ v, n.path = ref) ∧
          (∀ n ∈ v, baseName n.path ≠ ref) ∧
          (∀ n ∈ v, lowerStr (baseName n.path) ≠ lowerStr ref) ∧
          (∀ n ∈ v, ref ∉ n.aliases)) ∧
    (∀ (v : List NoteData) (ref : String),
        endsWithMd ref = true → (∃ n ∈ v, n.path = ref) →
          resolve_note v ref = Res.ok ref) ∧
    (∀ (v : List NoteData) (ref : String) (n : NoteData),
        ¬(endsWithMd ref = true ∧ ∃ m ∈ v, m.path = ref) →
        v.find? (fun m => baseName m.path == ref) = some n →
          resolve_note v ref = Res.ok n.path) ∧
    (∀ (v : List NoteData) (ref : String) (n : NoteData),
        ¬(endsWithMd ref = true ∧ ∃ m ∈ v, m.path = ref) →
        v.find? (fun m => baseName m.path == ref) = none →
        v.find? (fun m => lowerStr (baseName m.path) == lowerStr ref) = some n →
          resolve_note v ref = Res.ok n.path) ∧
    (∀ (v : List NoteData) (ref : String) (n : NoteData),
        ¬(endsWithMd ref = true ∧ ∃ m ∈ v, m.path = ref) →
        v.find? (fun m => baseName m.path == ref) = none →
        v.find? (fun m => lowerStr (baseName m.path) == lowerStr ref) = none →
        v.find? (fun m => m.aliases.contains ref) = some n →
          resolve_note v ref = Res.ok n.path) ∧
    resolve_note
        [⟨"Getting Started.md", "", ["quickstart", "tutorial"], []⟩,
         ⟨"Welcome.md", "", [], []⟩] "Getting Started.md" =
      Res.ok "Getting Started.md" ∧
    resolve_note
        [⟨"Getting Started.md", "", ["quickstart", "tutorial"], []⟩,
         ⟨"Welcome.md", "", [], []⟩] "quickstart" =
      Res.ok "Getting Started.md" :=
  ⟨resolve_note_notFound_iff, resolve_note_path_first, resolve_note_base_second,
   resolve_note_ci_third, resolve_note_alias_fourth, by decide, by decide⟩

theorem claim_C3_witness :
    resolve_note [NoteData.mk "a.md" "" [] []] "a.md" = Res.ok "a.md" :=
  claim_C3.2.1 [NoteData.mk "a.md" "" [] []] "a.md" (by decide)
    ⟨NoteData.mk "a.md" "" [] [], by decide, rfl⟩

/-- Claim C4: graph symmetry: whenever note B appears as the resolved
target of a non-embed LinkRef in the outgoing links of note A, then note A
appears in the incoming links of B with the same line and context, the
source and target roles of from_note swapped. -/
theorem claim_C4 :
    ∀ (v : List NoteData) (A B : String) (ln : Nat) (ctx : String),
      (⟨B, ln, ctx, false⟩ : LinkRef) ∈ get_outgoing_links v A →
      (⟨A, ln, ctx, false⟩ : LinkRef) ∈ get_incoming_links v B := by
  intro v A B ln ctx h
  unfold get_outgoing_links at h
  split at h
  next nA hfind =>
    obtain ⟨lc, hlc, hres⟩ := List.mem_filterMap.mp h
    unfold resolveRef at hres
    split at hres
    next t hr =>
      obtain ⟨h1, h2, h3, h4⟩ : t = B ∧ lc.1.line = ln ∧ lc.2 = ctx ∧ lc.1.embed = false := by
        simpa [LinkRef.mk.injEq] using hres
      have hA : nA.path = A := by simpa using List.find?_some hfind
      unfold get_incoming_links
      refine List.mem_flatMap.mpr ⟨nA, List.mem_of_find?_eq_some hfind, ?_⟩
      refine List.mem_filterMap.mpr ⟨lc, hlc, ?_⟩
      rw [hr]
      dsimp only
      rw [h1, if_pos rfl, hA, h2, h3, h4]
    next => simp at hres
  next => simp at h

theorem claim_C4_witness :
    (⟨"a.md", 1, "body", false⟩ : LinkRef) ∈
      get_incoming_links [⟨"a.md", "[[b]]", [], []⟩, ⟨"b.md", "", [], []⟩] "b.md" :=
  claim_C4 [⟨"a.md", "[[b]]", [], []⟩, ⟨"b.md", "", [], []⟩] "a.md" "b.md" 1 "body"
    (by decide)

/-- Claim C5: the task line with description Foo, a calendar-glyph due date,
a high-priority glyph and a trailing tag yields exactly that metadata, each
matched token removed from the description and recorded on the Task. -/
theorem claim_C5 :
    get_tasks "f.md" "- [ ] Foo 📅 2024-02-15 ⏫ #urgent" =
      [⟨"[ ]", "Foo", some "2024-02-15", none, some "high", ["urgent"], none, 0, 1,
        "f.md"⟩] := by
  decide

/-- Claim C6: in every outgoing LinkRef the from_note field holds the
resolved target of some link of the queried note and the context is body or
a frontmatter field locator; in every incoming LinkRef the from_note field
holds the source note containing the link. -/
theorem claim_C6 :
    (∀ (v : List NoteData) (p : String) (ref : LinkRef), ref ∈ get_outgoing_links v p →
        (∃ n ∈ v, n.path = p ∧ ∃ lc ∈ noteLinks n,
            resolve_note v lc.1.target = Res.ok ref.from_note ∧
            ref.line = lc.1.line ∧ ref.context = lc.2 ∧ ref.embed = lc.1.embed) ∧
        (ref.context = "body" ∨ ∃ f, ref.context = "frontmatter:" ++ f)) ∧
    (∀ (v : List NoteData) (p : String) (ref : LinkRef), ref ∈ get_incoming_links v p →
        ∃ src ∈ v, ref.from_note = src.path ∧ ∃ lc ∈ noteLinks src,
            resolve_note v lc.1.target = Res.ok p ∧
            ref.line = lc.1.line ∧ ref.context = lc.2 ∧ ref.embed = lc.1.embed) := by
  constructor
  · intro v p ref h
    unfold get_outgoing_links at h
    split at h
    next nA hfind =>
      obtain ⟨lc, hlc, hres⟩ := List.mem_filterMap.mp h
      unfold resolveRef at hres
      split at hres
      next t hr =>
        obtain ⟨h1, h2, h3, h4⟩ :
            t = ref.from_note ∧ lc.1.line = ref.line ∧ lc.2 = ref.context ∧
              lc.1.embed = ref.embed := by
          cases ref
          simpa [LinkRef.mk.injEq] using hres
        refine ⟨⟨nA, List.mem_of_find?_eq_some hfind,
          by simpa using List.find?_some hfind, lc, hlc, ?_, h2.symm, h3.symm, h4.symm⟩, ?_⟩
        · rw [hr, h1]
        · rw [← h3]
          exact noteLinks_context hlc
      next => simp at hres
    next => simp at h
  · intro v p ref h
    unfold get_incoming_links at h
    obtain ⟨src, hsrc, h2⟩ := List.mem_flatMap.mp h
    obtain ⟨lc, hlc, hres⟩ := List.mem_filterMap.mp h2
    split at hres
    next t hr =>
      split at hres
      next htp =>
        obtain ⟨h1, h5, h3, h4⟩ :
            src.path = ref.from_note ∧ lc.1.line = ref.line ∧ lc.2 = ref.context ∧
              lc.1.embed = ref.embed := by
          cases ref
          simpa [LinkRef.mk.injEq] using hres
        exact ⟨src, hsrc, h1.symm, lc, hlc, by rw [hr, htp], h5.symm, h3.symm, h4.symm⟩
      next => simp at hres
    next => simp at hres

theorem claim_C6_witness :
    (∃ n ∈ [NoteData.mk "a.md" "[[b]]" [] [], NoteData.mk "b.md" "" [] []],
        n.path = "a.md" ∧ ∃ lc ∈ noteLinks n,
          resolve_note [NoteData.mk "a.md" "[[b]]" [] [], NoteData.mk "b.md" "" [] []]
              lc.1.target =
            Res.ok (LinkRef.mk "b.md" 1 "body" false).from_note ∧
          (LinkRef.mk "b.md" 1 "body" false).line = lc.1.line ∧
          (LinkRef.mk "b.md" 1 "body" false).context = lc.2 ∧
          (LinkRef.mk "b.md" 1 "body" false).embed = lc.1.embed) ∧
    ((LinkRef.mk "b.md" 1 "body" false).context = "body" ∨
      ∃ f, (LinkRef.mk "b.md" 1 "body" false).context = "frontmatter:" ++ f) :=
  claim_C6.1 [NoteData.mk "a.md" "[[b]]" [] [], NoteData.mk "b.md" "" [] []] "a.md"
    (LinkRef.mk "b.md" 1 "body" false) (by decide)

/-- Claim C7 counterexample: in the note with headings a 2, a, a, the two
headings with identical text a receive the distinct slugs a and a-3, and
a-3 does not end in -2, refuting the claim that the second of two
identical headings always gets a slug ending in -2. -/
theorem claim_C7_counterexample :
    (parse_content_headings "# a 2\n# a\n# a").map Heading.text = ["a 2", "a", "a"] ∧
    (parse_content_headings "# a 2\n# a\n# a").map Heading.slug = ["a-2", "a", "a-3"] ∧
    ("-2".data.isSuffixOf "a-3".data) = false := by
  decide

/-- Claim C7 (amended): slugs are computed by lower-casing, collapsing runs
outside lowercase alphanumerics to a single dash and trimming dashes, with
numeric suffixes -2, -3, ... appended until unique; all slugs within one
note are pairwise distinct, and when no earlier heading already produced a
colliding slug the second of two identical headings ends in -2. -/
theorem claim_C7 :
    (∀ content : String, ((parse_content_headings content).map Heading.slug).Nodup) ∧
    parse_content_headings "# Same\n# Same" =
      [⟨1, "Same", 1, "same"⟩, ⟨1, "Same", 2, "same-2"⟩] :=
  ⟨fun _ => (assignSlugs_spec _ []).2, by decide⟩

/-- Claim C8: graph queries never fail because a link target does not
resolve: the outgoing list keeps exactly the links whose target resolves
(each unresolvable link is omitted rather than an error), and both queries
leave the Note Index unchanged. -/
theorem claim_C8 :
    (∀ (v : List NoteData) (p : String) (n : NoteData),
        v.find? (fun m => m.path == p) = some n →
        (get_outgoing_links v p).length =
          ((noteLinks n).filter
            (fun lc => isOkRes (resolve_note v lc.1.target))).length) ∧
    (∀ (v : List NoteData) (lc : Link × String),
        resolve_note v lc.1.target = Res.notFound → resolveRef v lc = none) ∧
    (∀ (s : VaultState) (p : String),
        (runOutgoingQuery s p).2 = s ∧ (runIncomingQuery s p).2 = s) := by
  refine ⟨?_, ?_, fun s p => ⟨rfl, rfl⟩⟩
  · intro v p n hfind
    unfold get_outgoing_links
    rw [hfind, length_filterMap_eq_filter]
    congr 1
    exact List.filter_congr (fun lc _ => resolveRef_isSome v lc)
  · intro v lc hnf
    simp [resolveRef, hnf]

theorem claim_C8_witness :
    (get_outgoing_links
        [NoteData.mk "a.md" "[[b]] [[broken]]" [] [], NoteData.mk "b.md" "" [] []]
        "a.md").length =
      ((noteLinks (NoteData.mk "a.md" "[[b]] [[broken]]" [] [])).filter
        (fun lc => isOkRes (resolve_note
          [NoteData.mk "a.md" "[[b]] [[broken]]" [] [], NoteData.mk "b.md" "" [] []]
          lc.1.target))).length :=
  claim_C8.1 _ "a.md" _ (by decide)

/-- Claim C9: the standalone extractors are deterministic pure functions of
the content: invoking them twice on the same content yields identical
record sequences; in this embedding they are total functions of their
input with no other state. -/
theorem claim_C9 :
    ∀ content : String,
      parse_links content = parse_links content ∧
      parse_content_tags content = parse_content_tags content ∧
      parse_content_headings content = parse_content_headings content :=
  fun _ => ⟨rfl, rfl, rfl⟩

/-- Claim C10: every Task record carries its checkbox symbol as one of the
four literal bracket strings, so equality comparison against those strings
distinguishes todo, done, deferred and cancelled tasks. -/
theorem claim_C10 :
    (∀ (file content : String) (t : Task), t ∈ get_tasks file content →
        t.symbol = "[ ]" ∨ t.symbol = "[x]" ∨ t.symbol = "[>]" ∨ t.symbol = "[-]") ∧
    (get_tasks "f.md" "- [ ] a\n- [x] b\n- [>] c\n- [-] d").map Task.symbol =
      ["[ ]", "[x]", "[>]", "[-]"] :=
  ⟨get_tasks_mem_symbol, by decide⟩

theorem claim_C10_witness :
    (Task.mk "[ ]" "a" none none none [] none 0 1 "f.md").symbol = "[ ]" ∨
    (Task.mk "[ ]" "a" none none none [] none 0 1 "f.md").symbol = "[x]" ∨
    (Task.mk "[ ]" "a" none none none [] none 0 1 "f.md").symbol = "[>]" ∨
    (Task.mk "[ ]" "a" none none none [] none 0 1 "f.md").symbol = "[-]" :=
  claim_C10.1 "f.md" "- [ ] a"
    (Task.mk "[ ]" "a" none none none [] none 0 1 "f.md") (by decide)

end Vaultiel
